import Mathlib

/-!
Verification of the n-tuple TD-learning agent in `agent.h` (Threes!/2048-style
framework).  The C++ code is shallowly embedded: boards are total functions
from cell positions to tile ranks, the weight tables are total functions from
(table number, index) to exact rationals (the C++ uses `float`/`double`; all
claims under test concern control flow, index arithmetic and exact algebraic
structure, so exact arithmetic is the intended reading), and the mutable
trajectory stack is an explicit list whose head is the stack top.
`board::slide` lives in `board.h`, which is external to the core under
verification; it is treated as an opaque parameter `sf` returning the
(reward, afterstate) pair, with reward `-1` signalling an illegal move,
exactly as the agent observes it.
-/

/-- A board is a read-only view of 16 cells in row-major order; the agent only
ever reads cells through `operator()`.  Cells outside `0..15` are never read
by the embedded code paths. -/
def Board : Type := ℕ → ℕ

instance : Inhabited Board := ⟨fun _ => 0⟩

/-- Number of empty cells, as computed at the top of `Feature::operator()`:
a loop over all 16 cells counting zeros. -/
def emptyCount (b : Board) : ℕ :=
  (List.range 16).countP (fun i => b i == 0)

/-- One n-tuple feature: an ordered list of cell positions, where `-1` is the
sentinel denoting the empty-cell count (`agent.h`, class `Feature`). -/
structure Feature where
  feature : List ℤ
deriving DecidableEq, Inhabited

/-- `Feature::operator()`: pack one 4-bit nibble per listed position,
most-significant first; a `-1` entry contributes the empty-cell count,
any other entry contributes the cell's tile rank. -/
def Feature.index (f : Feature) (b : Board) : ℕ :=
  f.feature.foldl
    (fun idx k => (idx <<< 4) ||| (if k = -1 then emptyCount b else b k.toNat))
    0

/-- `Feature::size`. -/
def Feature.size (f : Feature) : ℕ := f.feature.length

/-- `Feature::hash`: bit-OR of `1 <<< k` over the non-sentinel positions,
negated when a sentinel is present. -/
def Feature.hash (f : Feature) : ℤ :=
  let i : ℕ := f.feature.foldl
    (fun acc k => if k = -1 then acc else acc ||| (1 <<< k.toNat)) 0
  if (-1 : ℤ) ∈ f.feature then -(i : ℤ) else (i : ℤ)

/-- `IsoFeature::_right_rotation_matching`. -/
def right_rotation_matching : List ℕ :=
  [12, 8, 4, 0, 13, 9, 5, 1, 14, 10, 6, 2, 15, 11, 7, 3]

/-- `IsoFeature::_reflection_matching`. -/
def reflection_matching : List ℕ :=
  [15, 11, 7, 3, 14, 10, 6, 2, 13, 9, 5, 1, 12, 8, 4, 0]

/-- `IsoFeature::left_rotate`: skip sentinel entries, map the rest through the
rotation table. -/
def left_rotate (feat : List ℤ) : List ℤ :=
  feat.filterMap
    (fun i => if i = -1 then none else some (right_rotation_matching.getD i.toNat 0 : ℤ))

/-- `IsoFeature::reflection` (renamed here to avoid a clash with Mathlib):
skip sentinel entries, map the rest through the reflection table. -/
def reflectFeat (feat : List ℤ) : List ℤ :=
  feat.filterMap
    (fun i => if i = -1 then none else some (reflection_matching.getD i.toNat 0 : ℤ))

/-- Stable insertion into a list sorted by strictly descending first component,
matching the comparator `a.first > b.first` handed to `std::sort` (which on a
9-element range is a stable insertion sort in practice; the C++ standard
leaves the order of hash ties unspecified, and the embedding fixes the stable
order). -/
def insertDesc (x : ℤ × Feature) : List (ℤ × Feature) → List (ℤ × Feature)
  | [] => [x]
  | y :: rest => if x.1 > y.1 then x :: y :: rest else y :: insertDesc x rest

/-- Stable descending sort by hash. -/
def sortDesc (l : List (ℤ × Feature)) : List (ℤ × Feature) :=
  l.foldl (fun acc x => insertDesc x acc) []

/-- Adjacent deduplication keeping the first element of every run, as
`std::unique` does; `std::pair::operator==` compares the stored hash and then
`Feature::operator==`, which again compares hashes. -/
def dedupAux (x : ℤ × Feature) : List (ℤ × Feature) → List (ℤ × Feature)
  | [] => [x]
  | y :: rest =>
      if x.1 = y.1 ∧ x.2.hash = y.2.hash then dedupAux x rest
      else x :: dedupAux y rest

/-- Run-deduplication of the sorted list (`std::unique` then `erase`). -/
def dedupAdj : List (ℤ × Feature) → List (ℤ × Feature)
  | [] => []
  | x :: rest => dedupAux x rest

/-- The nine `(hash, Feature)` pairs pushed by `IsoFeature::create_iso_feature`
before deduplication: five successive rotations of the base feature, then a
reflection followed by itself and three further rotations. -/
def isoGen (feat : Feature) : List (ℤ × Feature) :=
  let t1 : Feature := ⟨left_rotate feat.feature⟩
  let t2 : Feature := ⟨left_rotate t1.feature⟩
  let t3 : Feature := ⟨left_rotate t2.feature⟩
  let t4 : Feature := ⟨left_rotate t3.feature⟩
  let t5 : Feature := ⟨left_rotate t4.feature⟩
  let s1 : Feature := ⟨reflectFeat t5.feature⟩
  let s2 : Feature := ⟨left_rotate s1.feature⟩
  let s3 : Feature := ⟨left_rotate s2.feature⟩
  let s4 : Feature := ⟨left_rotate s3.feature⟩
  [(t1.hash, t1), (t2.hash, t2), (t3.hash, t3), (t4.hash, t4), (t5.hash, t5),
   (s1.hash, s1), (s2.hash, s2), (s3.hash, s3), (s4.hash, s4)]

/-- `IsoFeature::create_iso_feature`: generate, sort by hash descending,
deduplicate adjacent equal hashes, and re-append a single sentinel at the end
of every kept variant when the base feature contained one. -/
def create_iso_feature (feat : Feature) : List Feature :=
  let with_hint : Bool := (-1 : ℤ) ∈ feat.feature
  (dedupAdj (sortDesc (isoGen feat))).map
    (fun p => ⟨p.2.feature ++ (if with_hint then [(-1 : ℤ)] else [])⟩)

/-- The configured base features (`feats` in `agent.h`). -/
def feats : List (List ℤ) :=
  [[0, 1, 2, 3, 4, 5],
   [4, 5, 6, 7, 8, 9],
   [5, 6, 7, 9, 10, 11],
   [9, 10, 11, 13, 14, 15]]

/-- The agent's isomorphic-feature orbits, one per base feature
(`ntuple::features`, built in the constructor). -/
def features : List (List Feature) :=
  feats.map (fun v => create_iso_feature ⟨v⟩)

/-- `ntuple::feature_num`: total number of (base feature × symmetry variant)
pairs, computed once at construction. -/
def feature_num : ℕ :=
  (features.map List.length).sum

/-- The weight tables: `net[i][idx]` as a total function.  Row `i` is the
`weight` object of base feature `i`; the C++ tables are finite arrays whose
index ranges the agent never exceeds (claim C6). -/
def Net : Type := ℕ → ℕ → ℚ

instance : Inhabited Net := ⟨fun _ _ => 0⟩

/-- The contribution of base feature `i`'s table to the value sum. -/
def row_value (net : Net) (i : ℕ) (b : Board) : ℚ :=
  ((features.getD i []).map (fun f => net i (f.index b))).sum

/-- `ntuple::get_value`: sum over every base feature of every orbit variant's
table entry. -/
def get_value (net : Net) (b : Board) : ℚ :=
  ((List.range features.length).map (fun i => row_value net i b)).sum

/-- One `net[i][idx] += d` store. -/
def addAt (net : Net) (i idx : ℕ) (d : ℚ) : Net :=
  fun i' j' => if i' = i ∧ j' = idx then net i' j' + d else net i' j'

/-- The inner loop of `ntuple::update_weight` for base feature `i`. -/
def update_row (curr : Board) (tg : ℚ) (net : Net) (i : ℕ) : Net :=
  (features.getD i []).foldl (fun n f => addAt n i (f.index curr) tg) net

/-- `ntuple::update_weight`: evaluate the state once, form the scaled TD
error, then add it to every orbit variant's table entry in turn. -/
def update_weight (alpha : ℚ) (net : Net) (target : ℚ) (curr : Board) : Net :=
  let v := get_value net curr
  let tg := alpha / (feature_num : ℚ) * (target - v)
  (List.range features.length).foldl (update_row curr tg) net

/-- An agent's returned action: the null action `action()` or `action::slide`
(the class `action` of the framework, capitalised to `Act` here). -/
inductive Act where
  | null : Act
  | slide (op : ℤ) : Act
deriving DecidableEq

/-- One trajectory entry: (pre-move board, recorded reward), `target` in
`agent.h`. -/
def Entry : Type := Board × ℤ

instance : Inhabited Entry := ⟨(default, 0)⟩

/-- The move directions tried in order (`ntuple::op_code`). -/
def op_code : List ℕ := [0, 1, 2, 3]

/-- The loop body of `ntuple::take_action`: given the running
(best, best_op, rew) triple and a direction, simulate the slide and keep the
strictly better estimate (`reward != -1` guard, then strict `estimate > best`
comparison). -/
def slideStep (net : Net) (sf : Board → ℕ → ℤ × Board) (b : Board)
    (st : ℚ × ℤ × ℤ) (op : ℕ) : ℚ × ℤ × ℤ :=
  if (sf b op).1 ≠ -1 ∧ get_value net (sf b op).2 + ((sf b op).1 : ℚ) > st.1 then
    (get_value net (sf b op).2 + ((sf b op).1 : ℚ), (op : ℤ), (sf b op).1)
  else st

/-- `ntuple::take_action`: fold the four directions starting from
`best = -1, best_op = -1` (the uninitialised `rew` is modelled as `0`; it is
only read after an assignment), then either push the chosen reward and return
the slide, or push reward `0` and return the null action. -/
def take_action (net : Net) (sf : Board → ℕ → ℤ × Board) (before : Board)
    (hist : List Entry) : Act × List Entry :=
  let st := op_code.foldl (slideStep net sf before) (-1, -1, 0)
  if st.2.1 ≠ -1 then (Act.slide st.2.1, (before, st.2.2) :: hist)
  else (Act.null, (before, 0) :: hist)

/-- The `while` loop of `ntuple::close_episode`: pop entries in LIFO order,
using the just-updated tables to evaluate the previous state.  Besides the
final tables it returns the remaining trajectory (always emptied) and the
ordered list of `(target, state)` arguments passed to `update_weight`. -/
def close_loop (alpha : ℚ) : Net → Board → List Entry →
    Net × List Entry × List (ℚ × Board)
  | net, _, [] => (net, [], [])
  | net, prev, (s, r) :: rest =>
      let tg : ℚ := (r : ℚ) + get_value net prev
      let res := close_loop alpha (update_weight alpha net tg s) s rest
      (res.1, res.2.1, (tg, s) :: res.2.2)

/-- `ntuple::close_episode`: pop the terminal entry (its recorded reward is
discarded), update it toward target `0`, then run the backward loop.  Calling
it on an empty trajectory is undefined behaviour in the C++ (`top` of an empty
`std::stack`); the embedding returns the state unchanged there and every claim
about `close_episode` is scoped to non-empty trajectories. -/
def close_episode (alpha : ℚ) (net : Net) (hist : List Entry) :
    Net × List Entry × List (ℚ × Board) :=
  match hist with
  | [] => (net, [], [])
  | (s, _) :: rest =>
      let res := close_loop alpha (update_weight alpha net 0 s) s rest
      (res.1, res.2.1, (0, s) :: res.2.2)

/-- The `while(!history.empty()) history.pop()` loop of
`ntuple::open_episode`. -/
def drain : List Entry → List Entry
  | [] => []
  | _ :: t => drain t

/-- `ntuple::open_episode`. -/
def open_episode (hist : List Entry) : List Entry := drain hist

/-- Replay a call log through `update_weight`, for stating how the tables
evolve across `close_episode`. -/
def replay_calls (alpha : ℚ) (net : Net) (calls : List (ℚ × Board)) : Net :=
  calls.foldl (fun n c => update_weight alpha n c.1 c.2) net

/-- A sequence of `take_action` calls threaded through the trajectory. -/
def run_takes (net : Net) (sf : Board → ℕ → ℤ × Board) (bs : List Board)
    (hist : List Entry) : List Entry :=
  bs.foldl (fun h b => (take_action net sf b h).2) hist

/-- `weight_agent`'s learning rate: initialised to `0` and overwritten only
when an `alpha` option is present (the string-to-number conversion performed
by `std::stod` is abstracted as `conv`). -/
def init_alpha (meta : List (String × String)) (conv : String → ℚ) : ℚ :=
  match meta.lookup "alpha" with
  | some v => conv v
  | none => 0

/-- Outcome of an operation that may terminate the process. -/
inductive ProcResult (A : Type) where
  | exited (code : ℤ) : ProcResult A
  | ok (v : A) : ProcResult A
deriving DecidableEq

/-- `weight_agent::load_weights`: `std::exit(-1)` when the input file fails to
open, otherwise the deserialised tables.  The stream deserialisation itself
lives in `weight.h` (external); it is abstracted as the already-decoded
`contents`. -/
def load_weights (openOk : Bool) (contents : List (List ℚ)) :
    ProcResult (List (List ℚ)) :=
  if openOk then ProcResult.ok contents else ProcResult.exited (-1)

/-- `weight_agent::save_weights`: `std::exit(-1)` when the output file fails
to open, otherwise the serialised tables. -/
def save_weights (openOk : Bool) (net : List (List ℚ)) :
    ProcResult (List (List ℚ)) :=
  if openOk then ProcResult.ok net else ProcResult.exited (-1)

/-- Modelled from the spec: `board.h` (the board collaborator) and the game
loop are not part of the sources under verification, so reachability of a
board is taken from the spec: a 4×4 board holds bounded tile ranks (each
fitting one 4-bit nibble) and a reachable position always carries at least
one tile, so its empty-cell count is at most 15. -/
def ReachableBoard (b : Board) : Prop :=
  (∀ i < 16, b i ≤ 15) ∧ ∃ i < 16, b i ≠ 0

/-- A cell permutation acting on boards: the transformed board reads cell `i`
from cell `p[i]` of the original. -/
def transformBoard (p : List ℕ) (b : Board) : Board :=
  fun i => b (p.getD i i)

/-- The same permutation acting on a feature's position list (sentinels are
kept fixed). -/
def actOn (p : List ℕ) (f : Feature) : Feature :=
  ⟨f.feature.map (fun k => if k = -1 then -1 else ((p.getD k.toNat k.toNat : ℕ) : ℤ))⟩

/-- Composition of permutation tables: `(composePerm p q)[i] = p[q[i]]`. -/
def composePerm (p q : List ℕ) : List ℕ :=
  q.map (fun j => p.getD j j)

/-- The identity cell permutation. -/
def idPerm : List ℕ := List.range 16

/-- The eight dihedral board symmetries, generated (like the orbits) by the
rotation and reflection tables of `IsoFeature`. -/
def syms : List (List ℕ) :=
  [idPerm,
   right_rotation_matching,
   composePerm right_rotation_matching right_rotation_matching,
   composePerm right_rotation_matching
     (composePerm right_rotation_matching right_rotation_matching),
   reflection_matching,
   composePerm reflection_matching right_rotation_matching,
   composePerm reflection_matching
     (composePerm right_rotation_matching right_rotation_matching),
   composePerm reflection_matching
     (composePerm right_rotation_matching
       (composePerm right_rotation_matching right_rotation_matching))]

/-- A sample non-trivial weight assignment used by witnesses. -/
def sampleNet : Net := fun i j => (i : ℚ) + (j : ℚ)

/-- The all-empty sample board used by witnesses. -/
def sampleBoard : Board := fun _ => 0

/-- A slide stub used by witnesses: always legal with reward 0, afterstate
unchanged. -/
def sampleSf : Board → ℕ → ℤ × Board := fun b _ => (0, b)

/-- The move-selection estimate `value(afterstate) + reward` for direction
`op`. -/
def estimate (net : Net) (sf : Board → ℕ → ℤ × Board) (b : Board) (op : ℕ) : ℚ :=
  get_value net (sf b op).2 + ((sf b op).1 : ℚ)

/-- Direction `op` is legal when `slide` does not return the `-1` sentinel. -/
def legal (sf : Board → ℕ → ℤ × Board) (b : Board) (op : ℕ) : Prop :=
  (sf b op).1 ≠ -1

instance legalDec (sf : Board → ℕ → ℤ × Board) (b : Board) (op : ℕ) :
    Decidable (legal sf b op) :=
  inferInstanceAs (Decidable ((sf b op).1 ≠ -1))

/-- The all-`-1` weight assignment making every afterstate value `-28`. -/
def cexNet : Net := fun _ _ => -1

/-- A slide stub with exactly one legal move (direction 0, reward 0). -/
def cexSf : Board → ℕ → ℤ × Board :=
  fun b op => if op = 0 then ((0 : ℤ), sampleBoard) else ((-1 : ℤ), b)

/-- A slide stub for which every direction is illegal. -/
def noMoveSf : Board → ℕ → ℤ × Board := fun b _ => ((-1 : ℤ), b)

/-- The all-zero weight assignment. -/
def zeroNet : Net := fun _ _ => 0

/-- The up-down flip of the board, an element of the symmetry group. -/
def udFlip : List ℕ := composePerm reflection_matching right_rotation_matching

/-- A board with a rank-1 tile at cell 5 and a rank-2 tile at cell 6. -/
def c4Board : Board := fun i => if i = 5 then 1 else if i = 6 then 2 else 0

/-- Weights that are 1 on table 2 at the index the base feature
`{5,6,7,9,10,11}` computes on `c4Board`, and 0 everywhere else. -/
def c4Net : Net := fun i j => if i = 2 ∧ j = 1179648 then 1 else 0

/-! ## Support lemmas -/

lemma addAt_apply (net : Net) (i idx : ℕ) (d : ℚ) (i' j' : ℕ) :
    addAt net i idx d i' j' = net i' j' + if i' = i ∧ j' = idx then d else 0 := by
  unfold addAt
  by_cases h : i' = i ∧ j' = idx <;> simp [h]

lemma fold_addAt (curr : Board) (tg : ℚ) (i : ℕ) :
    ∀ (fs : List Feature) (n : Net) (i' j : ℕ),
      (fs.foldl (fun n f => addAt n i (f.index curr) tg) n) i' j
        = n i' j
          + if i' = i then tg * (fs.countP (fun f => f.index curr == j) : ℚ) else 0 := by
  intro fs
  induction fs with
  | nil => intro n i' j; by_cases h : i' = i <;> simp [h]
  | cons f rest ih =>
    intro n i' j
    rw [List.foldl_cons, ih, addAt_apply, List.countP_cons]
    by_cases hii : i' = i
    · by_cases hj : j = f.index curr
      · simp only [hii, hj, and_self, if_true, beq_self_eq_true, if_pos]
        push_cast
        ring
      · have hb : ¬ (f.index curr == j) = true := by
          simpa [beq_iff_eq] using fun h => hj h.symm
        simp only [hii, hj, and_false, if_false, hb, if_neg, and_true]
        push_cast
        ring
    · simp [hii]

lemma countP_range_eq (i L : ℕ) :
    (List.range L).countP (fun r => r == i) = if i < L then 1 else 0 := by
  induction L with
  | zero => simp
  | succ L ih =>
    rw [List.range_succ, List.countP_append, ih]
    by_cases h1 : i < L
    · have : ¬ (L == i) = true := by simpa [beq_iff_eq] using fun h => by omega
      simp [h1, Nat.lt_succ_iff, this, Nat.le_of_lt h1]
    · by_cases h2 : i = L
      · simp [h1, h2, Nat.lt_succ_iff]
      · have : ¬ (L == i) = true := by simpa [beq_iff_eq] using fun h => h2 h.symm
        have h3 : ¬ i < L + 1 := by omega
        simp [h1, h3, this]

lemma fold_rows (curr : Board) (tg : ℚ) :
    ∀ (rs : List ℕ) (n : Net) (i j : ℕ),
      (rs.foldl (update_row curr tg) n) i j
        = n i j
          + tg * (rs.countP (fun r => r == i) : ℚ)
              * ((features.getD i []).countP (fun f => f.index curr == j) : ℚ) := by
  intro rs
  induction rs with
  | nil => intro n i j; simp
  | cons r rest ih =>
    intro n i j
    rw [List.foldl_cons, ih, List.countP_cons]
    unfold update_row
    rw [fold_addAt]
    by_cases hir : i = r
    · subst hir
      simp only [beq_self_eq_true, if_pos, if_true]
      push_cast
      ring
    · have hb : ¬ (r == i) = true := by simpa [beq_iff_eq] using fun h => hir h.symm
      simp only [hir, if_neg, hb, if_false]
      push_cast
      ring

lemma update_weight_apply (alpha : ℚ) (net : Net) (target : ℚ) (curr : Board)
    (i j : ℕ) :
    update_weight alpha net target curr i j
      = net i j
        + (alpha / (feature_num : ℚ) * (target - get_value net curr))
            * ((features.getD i []).countP (fun f => f.index curr == j) : ℚ) := by
  unfold update_weight
  rw [fold_rows, countP_range_eq]
  by_cases h : i < features.length
  · rw [if_pos h]
    push_cast
    ring
  · have hd : features.getD i [] = [] :=
      List.getD_eq_default _ _ (by omega)
    rw [if_neg h, hd]
    simp

lemma update_weight_zero (net : Net) (target : ℚ) (curr : Board) :
    update_weight 0 net target curr = net := by
  funext i j
  rw [update_weight_apply]
  simp

lemma close_loop_net_zero :
    ∀ (rest : List Entry) (net : Net) (prev : Board),
      (close_loop 0 net prev rest).1 = net := by
  intro rest
  induction rest with
  | nil => intro net prev; rfl
  | cons e rest ih =>
    intro net prev
    obtain ⟨s, r⟩ := e
    simp only [close_loop]
    rw [update_weight_zero, ih]

/-! ## Claim theorems (part 1) -/

/-- C3: `update_weight` computes the TD increment
`delta = alpha / feature_num * (target - value(state))` exactly once, with
`value(state)` taken from the tables before any mutation, and adds it to
`net[i][f(state)]` once for every base feature `i` and every orbit variant
`f`; equivalently, entry `(i, j)` grows by `delta` times the number of
variants of base feature `i` whose index at `state` equals `j`. -/
theorem claim_C3_update_weight (alpha : ℚ) (net : Net) (target : ℚ)
    (curr : Board) (i j : ℕ) :
    update_weight alpha net target curr i j
      = net i j
        + (alpha / (feature_num : ℚ) * (target - get_value net curr))
            * ((features.getD i []).countP (fun f => f.index curr == j) : ℚ) :=
  update_weight_apply alpha net target curr i j

/-- C5: each configured base feature's deduplicated orbit has size dividing 8,
and rotating any orbit member four times through `left_rotate` reproduces its
symmetry hash. -/
theorem claim_C5_orbit_closure :
    ∀ orb ∈ features, orb.length ∣ 8
      ∧ ∀ f ∈ orb,
          Feature.hash ⟨left_rotate (left_rotate (left_rotate (left_rotate f.feature)))⟩
            = f.hash := by
  decide

/-- Witness for C5 at the third configured base feature (the one with the
reduced, 4-element orbit). -/
theorem claim_C5_orbit_closure_witness :
    (features.getD 2 []) ∈ features
    ∧ ((features.getD 2 []).length ∣ 8
        ∧ ∀ f ∈ features.getD 2 [],
            Feature.hash ⟨left_rotate (left_rotate (left_rotate (left_rotate f.feature)))⟩
              = f.hash) :=
  ⟨by decide, claim_C5_orbit_closure (features.getD 2 []) (by decide)⟩

lemma index_fold_bound (b : Board) (hemp : emptyCount b ≤ 15)
    (hcell : ∀ i < 16, b i ≤ 15) :
    ∀ (l : List ℤ) (m acc : ℕ),
      (∀ k ∈ l, k = -1 ∨ (0 ≤ k ∧ k.toNat < 16)) → acc < 16 ^ m →
      l.foldl (fun idx k => (idx <<< 4) ||| (if k = -1 then emptyCount b else b k.toNat)) acc
        < 16 ^ (m + l.length) := by
  intro l
  induction l with
  | nil => intro m acc _ hacc; simpa using hacc
  | cons k rest ih =>
    intro m acc hl hacc
    have hv : (if k = -1 then emptyCount b else b k.toNat) < 16 := by
      by_cases hk : k = -1
      · simp only [hk, if_pos]
        omega
      · rcases hl k (List.mem_cons_self k rest) with h | ⟨_, h16⟩
        · exact absurd h hk
        · simp only [hk, if_neg, not_false_iff]
          exact Nat.lt_of_le_of_lt (Nat.le_refl _) (by have := hcell k.toNat h16; omega)
    have hacc2 : acc < 2 ^ (4 * m) := by
      rw [show (16 : ℕ) = 2 ^ 4 from rfl, ← pow_mul] at hacc
      exact hacc
    have hv2 : (if k = -1 then emptyCount b else b k.toNat) < 2 ^ 4 := hv
    have hstep := Nat.append_lt hv2 hacc2
    have hstep2 : (acc <<< 4) ||| (if k = -1 then emptyCount b else b k.toNat)
        < 16 ^ (m + 1) := by
      rw [show (16 : ℕ) = 2 ^ 4 from rfl, ← pow_mul]
      have : 4 * (m + 1) = 4 + 4 * m := by ring
      rw [this]
      exact hstep
    have hrec := ih (m + 1) _ (fun x hx => hl x (List.mem_cons_of_mem _ hx)) hstep2
    have hex : m + 1 + rest.length = m + (rest.length + 1) := by omega
    rw [hex] at hrec
    simpa using hrec

/-- C6: on a reachable board (bounded tile ranks, at least one tile) the
empty-cell count fits in 4 bits, and every feature index stays below
`16 ^ tupleLength`, the size of the corresponding weight table. -/
theorem claim_C6_index_range (b : Board) (hb : ReachableBoard b) (f : Feature)
    (hf : ∀ k ∈ f.feature, k = -1 ∨ (0 ≤ k ∧ k.toNat < 16)) :
    emptyCount b ≤ 15 ∧ f.index b < 16 ^ f.feature.length := by
  obtain ⟨hcell, i, hi, hnz⟩ := hb
  have h1 : emptyCount b ≤ 16 := by
    have := List.countP_le_length (l := List.range 16) (p := fun i => b i == 0)
    simpa [emptyCount] using this
  have h2 : emptyCount b ≠ 16 := by
    intro h
    have hall : ∀ x ∈ List.range 16, (fun i => b i == 0) x = true := by
      apply List.countP_eq_length.mp
      simpa [emptyCount] using h
    have := hall i (List.mem_range.mpr hi)
    simp only [beq_iff_eq] at this
    exact hnz this
  have hemp : emptyCount b ≤ 15 := by omega
  refine ⟨hemp, ?_⟩
  have := index_fold_bound b hemp hcell f.feature 0 0 hf (by norm_num)
  simpa [Feature.index] using this

/-- Witness for C6: a board with a single rank-1 tile at cell 0 and the first
configured base feature. -/
theorem claim_C6_index_range_witness :
    ReachableBoard (fun i => if i = 0 then 1 else 0)
    ∧ (∀ k ∈ (Feature.mk [0, 1, 2, 3, 4, 5]).feature,
        k = -1 ∨ (0 ≤ k ∧ k.toNat < 16))
    ∧ (emptyCount (fun i => if i = 0 then 1 else 0) ≤ 15
        ∧ (Feature.mk [0, 1, 2, 3, 4, 5]).index (fun i => if i = 0 then 1 else 0)
            < 16 ^ (Feature.mk [0, 1, 2, 3, 4, 5]).feature.length) :=
  ⟨by constructor
      · intro i _; by_cases h : i = 0 <;> simp [h]
      · exact ⟨0, by norm_num, by norm_num⟩,
   by decide,
   claim_C6_index_range _
     ⟨fun i _ => by by_cases h : i = 0 <;> simp [h],
      0, by norm_num, by norm_num⟩
     _ (by decide)⟩

/-- C9: a failed file open aborts the process with `std::exit(-1)` for both
loading and saving; there is no recovery or degraded result. -/
theorem claim_C9_fatal_open_failure :
    (∀ contents, load_weights false contents = ProcResult.exited (-1))
    ∧ (∀ net, save_weights false net = ProcResult.exited (-1)) :=
  ⟨fun _ => rfl, fun _ => rfl⟩

/-- C10: without an `alpha` option the learning rate stays 0, and then
`update_weight` (hence the whole backward pass of `close_episode`) leaves
every table entry unchanged. -/
theorem claim_C10_no_alpha_frozen (meta : List (String × String))
    (conv : String → ℚ) (h : meta.lookup "alpha" = none) (net : Net)
    (target : ℚ) (curr : Board) (hist : List Entry) :
    init_alpha meta conv = 0
    ∧ update_weight (init_alpha meta conv) net target curr = net
    ∧ (close_episode (init_alpha meta conv) net hist).1 = net := by
  have h0 : init_alpha meta conv = 0 := by
    unfold init_alpha
    rw [h]
  refine ⟨h0, ?_, ?_⟩
  · rw [h0]
    exact update_weight_zero net target curr
  · rw [h0]
    cases hist with
    | nil => rfl
    | cons e rest =>
      obtain ⟨s, r⟩ := e
      simp only [close_episode]
      rw [update_weight_zero, close_loop_net_zero]

/-- Witness for C10 with a concrete option map lacking `alpha`. -/
theorem claim_C10_no_alpha_frozen_witness :
    ([("name", "x")] : List (String × String)).lookup "alpha" = none
    ∧ (init_alpha [("name", "x")] (fun _ => 1) = 0
        ∧ update_weight (init_alpha [("name", "x")] (fun _ => 1))
            sampleNet 5 sampleBoard = sampleNet
        ∧ (close_episode (init_alpha [("name", "x")] (fun _ => 1))
            sampleNet [(sampleBoard, 3)]).1 = sampleNet) :=
  ⟨by decide,
   claim_C10_no_alpha_frozen [("name", "x")] (fun _ => 1) (by decide)
     sampleNet 5 sampleBoard [(sampleBoard, 3)]⟩

lemma mem_left_rotate_ne (l : List ℤ) (x : ℤ) (hx : x ∈ left_rotate l) :
    x ≠ -1 := by
  simp only [left_rotate, List.mem_filterMap] at hx
  obtain ⟨a, _, ha⟩ := hx
  by_cases h : a = -1
  · simp [h] at ha
  · simp only [h, if_neg, not_false_iff, Option.some.injEq] at ha
    omega

lemma mem_reflectFeat_ne (l : List ℤ) (x : ℤ) (hx : x ∈ reflectFeat l) :
    x ≠ -1 := by
  simp only [reflectFeat, List.mem_filterMap] at hx
  obtain ⟨a, _, ha⟩ := hx
  by_cases h : a = -1
  · simp [h] at ha
  · simp only [h, if_neg, not_false_iff, Option.some.injEq] at ha
    omega

lemma isoGen_no_sentinel (base : Feature) (p : ℤ × Feature)
    (hp : p ∈ isoGen base) : (-1 : ℤ) ∉ p.2.feature := by
  simp only [isoGen, List.mem_cons, List.not_mem_nil, or_false] at hp
  rcases hp with h | h | h | h | h | h | h | h | h <;> subst h <;>
    intro hm <;>
    first
      | exact mem_left_rotate_ne _ _ hm rfl
      | exact mem_reflectFeat_ne _ _ hm rfl

lemma dedupAux_subset :
    ∀ (l : List (ℤ × Feature)) (x : ℤ × Feature), dedupAux x l ⊆ x :: l := by
  intro l
  induction l with
  | nil => intro x; simp [dedupAux]
  | cons y rest ih =>
    intro x
    unfold dedupAux
    by_cases h : x.1 = y.1 ∧ x.2.hash = y.2.hash
    · rw [if_pos h]
      intro z hz
      have := ih x hz
      simp only [List.mem_cons] at this ⊢
      tauto
    · rw [if_neg h]
      intro z hz
      rcases List.mem_cons.mp hz with hzx | hzr
      · simp [hzx]
      · have := ih y hzr
        simp only [List.mem_cons] at this ⊢
        tauto

lemma dedupAdj_subset (l : List (ℤ × Feature)) : dedupAdj l ⊆ l := by
  cases l with
  | nil => simp [dedupAdj]
  | cons x rest => exact dedupAux_subset rest x

lemma insertDesc_perm :
    ∀ (l : List (ℤ × Feature)) (x : ℤ × Feature),
      List.Perm (insertDesc x l) (x :: l) := by
  intro l
  induction l with
  | nil => intro x; exact List.Perm.refl _
  | cons y rest ih =>
    intro x
    unfold insertDesc
    by_cases h : x.1 > y.1
    · rw [if_pos h]
    · rw [if_neg h]
      exact (List.Perm.cons y (ih x)).trans (List.Perm.swap x y rest)

lemma sortFold_perm :
    ∀ (l acc : List (ℤ × Feature)),
      List.Perm (l.foldl (fun a x => insertDesc x a) acc) (l ++ acc) := by
  intro l
  induction l with
  | nil => intro acc; simp
  | cons x rest ih =>
    intro acc
    rw [List.foldl_cons]
    refine (ih (insertDesc x acc)).trans ?_
    refine (List.Perm.append_left rest (insertDesc_perm acc x)).trans ?_
    exact List.perm_middle

lemma sortDesc_perm (l : List (ℤ × Feature)) : List.Perm (sortDesc l) l := by
  have := sortFold_perm l []
  simpa [sortDesc] using this

/-- C7 counterexample: the base feature `[-1, 0]` carries its sentinel at
relative position 0, yet no generated variant keeps the sentinel there (the
code strips sentinels and re-appends one at the end). -/
theorem claim_C7_counterexample :
    (([(-1 : ℤ), 0] : List ℤ).getD 0 0 = -1)
    ∧ ¬ ∀ f ∈ create_iso_feature ⟨[(-1 : ℤ), 0]⟩, f.feature.getD 0 0 = -1 :=
  ⟨by decide, by decide⟩

/-- C7 (amended): every orbit variant consists of a sentinel-free position
list produced by the rotation/reflection permutation maps (one of the nine
generated images of the base), followed by a single appended sentinel exactly
when the base feature contained one — so the sentinel ends up in the last
slot, not at its original relative position. -/
theorem claim_C7_sentinel_appended (base : Feature) (f : Feature)
    (hf : f ∈ create_iso_feature base) :
    ∃ v ∈ (isoGen base).map Prod.snd,
      (-1 : ℤ) ∉ v.feature
      ∧ f.feature
          = v.feature ++ (if (-1 : ℤ) ∈ base.feature then [(-1 : ℤ)] else []) := by
  unfold create_iso_feature at hf
  simp only [List.mem_map] at hf
  obtain ⟨p, hp, hfp⟩ := hf
  have hmem : p ∈ isoGen base :=
    (sortDesc_perm (isoGen base)).subset (dedupAdj_subset _ hp)
  refine ⟨p.2, List.mem_map_of_mem Prod.snd hmem,
    isoGen_no_sentinel base p hmem, ?_⟩
  rw [← hfp]
  by_cases h : (-1 : ℤ) ∈ base.feature <;> simp [h]

/-- Witness for C7 (amended) at the first variant of the first configured
base feature. -/
theorem claim_C7_sentinel_appended_witness :
    (Feature.mk [15, 14, 13, 12, 11, 10]) ∈ create_iso_feature ⟨[0, 1, 2, 3, 4, 5]⟩
    ∧ ∃ v ∈ (isoGen ⟨[0, 1, 2, 3, 4, 5]⟩).map Prod.snd,
        (-1 : ℤ) ∉ v.feature
        ∧ (Feature.mk [15, 14, 13, 12, 11, 10]).feature
            = v.feature
              ++ (if (-1 : ℤ) ∈ (Feature.mk ([0, 1, 2, 3, 4, 5] : List ℤ)).feature
                  then [(-1 : ℤ)] else []) :=
  ⟨by decide, claim_C7_sentinel_appended _ _ (by decide)⟩

lemma close_loop_spec (alpha : ℚ) :
    ∀ (rest : List Entry) (net : Net) (prev : Board),
      (close_loop alpha net prev rest).2.1 = []
      ∧ (close_loop alpha net prev rest).2.2.length = rest.length
      ∧ (close_loop alpha net prev rest).1
          = replay_calls alpha net (close_loop alpha net prev rest).2.2
      ∧ ∀ i, i < rest.length →
          (close_loop alpha net prev rest).2.2.getD i default
            = (((rest.getD i default).2 : ℚ)
                + get_value
                    (replay_calls alpha net
                      ((close_loop alpha net prev rest).2.2.take i))
                    ((prev :: rest.map Prod.fst).getD i default),
               (rest.getD i default).1) := by
  intro rest
  induction rest with
  | nil =>
    intro net prev
    refine ⟨rfl, rfl, rfl, ?_⟩
    intro i hi
    simp at hi
  | cons e rest ih =>
    intro net prev
    obtain ⟨s, r⟩ := e
    have hunfold : close_loop alpha net prev ((s, r) :: rest)
        = ((close_loop alpha
              (update_weight alpha net ((r : ℚ) + get_value net prev) s) s rest).1,
           (close_loop alpha
              (update_weight alpha net ((r : ℚ) + get_value net prev) s) s rest).2.1,
           ((r : ℚ) + get_value net prev, s)
             :: (close_loop alpha
                  (update_weight alpha net ((r : ℚ) + get_value net prev) s) s rest).2.2) :=
      rfl
    obtain ⟨ih1, ih2, ih3, ih4⟩ :=
      ih (update_weight alpha net ((r : ℚ) + get_value net prev) s) s
    rw [hunfold]
    refine ⟨ih1, by simpa using ih2, ?_, ?_⟩
    · simpa [replay_calls] using ih3
    · intro i hi
      cases i with
      | zero =>
        simp [replay_calls]
      | succ i =>
        have hi' : i < rest.length := by
          simpa using hi
        have H := ih4 i hi'
        simpa [replay_calls, List.getD_cons_succ, List.take_succ_cons] using H

/-- C2: on a non-empty trajectory, `close_episode` performs exactly
`length` calls to `update_weight`: the first with target `0` on the popped
terminal state (its recorded reward is dropped), and the `(i+1)`-th, in LIFO
order, with target `recorded reward + value(previous state)` where the value
is computed on the tables as they stand after the preceding updates; the
final tables equal the replay of the whole call log, and a single-entry
trajectory produces exactly the one call `(0, state)`. -/
theorem claim_C2_close_episode (alpha : ℚ) (net : Net) (s : Board) (r : ℤ)
    (rest : List Entry) :
    (close_episode alpha net ((s, r) :: rest)).2.2.length = rest.length + 1
    ∧ (close_episode alpha net ((s, r) :: rest)).2.2.getD 0 default = (0, s)
    ∧ (close_episode alpha net ((s, r) :: rest)).1
        = replay_calls alpha net (close_episode alpha net ((s, r) :: rest)).2.2
    ∧ ∀ i, i < rest.length →
        (close_episode alpha net ((s, r) :: rest)).2.2.getD (i + 1) default
          = (((rest.getD i default).2 : ℚ)
              + get_value
                  (replay_calls alpha net
                    ((close_episode alpha net ((s, r) :: rest)).2.2.take (i + 1)))
                  ((s :: rest.map Prod.fst).getD i default),
             (rest.getD i default).1) := by
  have hunfold : close_episode alpha net ((s, r) :: rest)
      = ((close_loop alpha (update_weight alpha net 0 s) s rest).1,
         (close_loop alpha (update_weight alpha net 0 s) s rest).2.1,
         (0, s) :: (close_loop alpha (update_weight alpha net 0 s) s rest).2.2) :=
    rfl
  obtain ⟨h1, h2, h3, h4⟩ :=
    close_loop_spec alpha rest (update_weight alpha net 0 s) s
  rw [hunfold]
  refine ⟨by simpa using h2, by simp, ?_, ?_⟩
  · simpa [replay_calls] using h3
  · intro i hi
    have H := h4 i hi
    simpa [replay_calls, List.getD_cons_succ, List.take_succ_cons] using H

/-- Witness for C2 on a two-entry trajectory, exercising the backward call. -/
theorem claim_C2_close_episode_witness :
    0 < ([(sampleBoard, (2 : ℤ))] : List Entry).length
    ∧ (close_episode 1 sampleNet
          ((sampleBoard, 4) :: [(sampleBoard, 2)])).2.2.getD (0 + 1) default
        = (((([(sampleBoard, (2 : ℤ))] : List Entry).getD 0 default).2 : ℚ)
            + get_value
                (replay_calls 1 sampleNet
                  ((close_episode 1 sampleNet
                      ((sampleBoard, 4) :: [(sampleBoard, 2)])).2.2.take (0 + 1)))
                ((sampleBoard
                    :: ([(sampleBoard, (2 : ℤ))] : List Entry).map Prod.fst).getD 0
                  default),
           (([(sampleBoard, (2 : ℤ))] : List Entry).getD 0 default).1) :=
  ⟨by decide,
   (claim_C2_close_episode 1 sampleNet sampleBoard 4 [(sampleBoard, 2)]).2.2.2 0
     (by decide)⟩

lemma drain_nil : ∀ h : List Entry, drain h = [] := by
  intro h
  induction h with
  | nil => rfl
  | cons e t ih => simpa [drain] using ih

lemma take_action_grows (net : Net) (sf : Board → ℕ → ℤ × Board) (b : Board)
    (hist : List Entry) :
    (take_action net sf b hist).2.length = hist.length + 1 := by
  unfold take_action
  by_cases h : (op_code.foldl (slideStep net sf b) (-1, -1, 0)).2.1 ≠ -1 <;>
    simp [h]

lemma close_episode_empties (alpha : ℚ) (net : Net) (hist : List Entry) :
    (close_episode alpha net hist).2.1 = [] := by
  cases hist with
  | nil => rfl
  | cons e rest =>
    obtain ⟨s, r⟩ := e
    exact (close_loop_spec alpha rest (update_weight alpha net 0 s) s).1

lemma run_takes_length (net : Net) (sf : Board → ℕ → ℤ × Board) :
    ∀ (bs : List Board) (hist : List Entry),
      (run_takes net sf bs hist).length = hist.length + bs.length := by
  intro bs
  induction bs with
  | nil => intro hist; simp [run_takes]
  | cons b bs ih =>
    intro hist
    have step : run_takes net sf (b :: bs) hist
        = run_takes net sf bs ((take_action net sf b hist).2) := rfl
    rw [step, ih, take_action_grows, List.length_cons]
    omega

/-- C8: `open_episode` always empties the trajectory; every `take_action`
call grows it by exactly one entry (legal move or not); and running any
non-empty sequence of `take_action` calls after `open_episode` followed by
one `close_episode` leaves the trajectory empty. -/
theorem claim_C8_trajectory (alpha : ℚ) (net : Net)
    (sf : Board → ℕ → ℤ × Board) (hist : List Entry) (b : Board)
    (bs : List Board) (hbs : bs ≠ []) :
    open_episode hist = []
    ∧ (take_action net sf b hist).2.length = hist.length + 1
    ∧ (run_takes net sf bs (open_episode hist)).length = bs.length
    ∧ run_takes net sf bs (open_episode hist) ≠ []
    ∧ (close_episode alpha net (run_takes net sf bs (open_episode hist))).2.1 = [] := by
  have hopen : open_episode hist = [] := drain_nil hist
  have hlen : (run_takes net sf bs (open_episode hist)).length = bs.length := by
    rw [hopen, run_takes_length]
    simp
  refine ⟨hopen, take_action_grows net sf b hist, hlen, ?_, close_episode_empties _ _ _⟩
  have hpos : 0 < bs.length := List.length_pos.mpr hbs
  intro hcon
  rw [hcon] at hlen
  simp at hlen
  omega

/-- Witness for C8 with one `take_action` call. -/
theorem claim_C8_trajectory_witness :
    ([sampleBoard] : List Board) ≠ []
    ∧ (open_episode [(sampleBoard, 5)] = []
        ∧ (take_action sampleNet sampleSf sampleBoard [(sampleBoard, 5)]).2.length
            = ([(sampleBoard, (5 : ℤ))] : List Entry).length + 1
        ∧ (run_takes sampleNet sampleSf [sampleBoard]
              (open_episode [(sampleBoard, 5)])).length
            = ([sampleBoard] : List Board).length
        ∧ run_takes sampleNet sampleSf [sampleBoard]
            (open_episode [(sampleBoard, 5)]) ≠ []
        ∧ (close_episode 1 sampleNet
            (run_takes sampleNet sampleSf [sampleBoard]
              (open_episode [(sampleBoard, 5)]))).2.1 = []) :=
  ⟨by simp,
   claim_C8_trajectory 1 sampleNet sampleSf [(sampleBoard, 5)] sampleBoard
     [sampleBoard] (by simp)⟩

lemma slide_fold_spec (net : Net) (sf : Board → ℕ → ℤ × Board) (b : Board) :
    ∀ (ops : List ℕ) (S : ℚ × ℤ × ℤ),
      (ops.foldl (slideStep net sf b) S = S
        ∧ ∀ op ∈ ops, legal sf b op → estimate net sf b op ≤ S.1)
      ∨ (∃ l₁ op l₂,
          ops = l₁ ++ op :: l₂
          ∧ legal sf b op
          ∧ ops.foldl (slideStep net sf b) S
              = (estimate net sf b op, (op : ℤ), (sf b op).1)
          ∧ S.1 < estimate net sf b op
          ∧ (∀ o ∈ l₁, legal sf b o → estimate net sf b o < estimate net sf b op)
          ∧ (∀ o ∈ l₂, legal sf b o → estimate net sf b o ≤ estimate net sf b op)) := by
  intro ops
  induction ops with
  | nil =>
    intro S
    left
    exact ⟨rfl, by simp⟩
  | cons op rest ih =>
    intro S
    rw [List.foldl_cons]
    by_cases h : legal sf b op ∧ S.1 < estimate net sf b op
    · have hstep : slideStep net sf b S op
          = (estimate net sf b op, (op : ℤ), (sf b op).1) := by
        unfold slideStep
        rw [if_pos ⟨h.1, h.2⟩]
        rfl
      rw [hstep]
      rcases ih (estimate net sf b op, (op : ℤ), (sf b op).1) with
        ⟨heq, hle⟩ | ⟨l₁, op', l₂, hdec, hleg, hfold, hlt, hl₁, hl₂⟩
      · right
        refine ⟨[], op, rest, by simp, h.1, heq, h.2, by simp, ?_⟩
        intro o ho hlo
        exact hle o ho hlo
      · right
        refine ⟨op :: l₁, op', l₂, by simp [hdec], hleg, hfold, h.2.trans hlt, ?_, hl₂⟩
        intro o ho hlo
        rcases List.mem_cons.mp ho with rfl | ho'
        · exact hlt
        · exact hl₁ o ho' hlo
    · have hstep : slideStep net sf b S op = S := by
        unfold slideStep
        rw [if_neg]
        intro hc
        exact h ⟨hc.1, hc.2⟩
      rw [hstep]
      rcases ih S with ⟨heq, hle⟩ | ⟨l₁, op', l₂, hdec, hleg, hfold, hlt, hl₁, hl₂⟩
      · left
        refine ⟨heq, ?_⟩
        intro o ho hlo
        rcases List.mem_cons.mp ho with rfl | ho'
        · by_contra hgt
          push_neg at hgt
          exact h ⟨hlo, hgt⟩
        · exact hle o ho' hlo
      · right
        refine ⟨op :: l₁, op', l₂, by simp [hdec], hleg, hfold, hlt, ?_, hl₂⟩
        intro o ho hlo
        rcases List.mem_cons.mp ho with rfl | ho'
        · have hos : estimate net sf b o ≤ S.1 := by
            by_contra hgt
            push_neg at hgt
            exact h ⟨hlo, hgt⟩
          exact lt_of_le_of_lt hos hlt
        · exact hl₁ o ho' hlo

lemma op_code_decomp (l₁ : List ℕ) (op : ℕ) (l₂ : List ℕ)
    (h : op_code = l₁ ++ op :: l₂) : ∀ o ∈ l₂, op < o := by
  unfold op_code at h
  rcases l₁ with _ | ⟨a, _ | ⟨c, _ | ⟨d, _ | ⟨e, t⟩⟩⟩⟩
  · simp only [List.nil_append, List.cons.injEq] at h
    obtain ⟨h1, h2⟩ := h
    subst h1
    rw [← h2]
    decide
  · simp only [List.cons_append, List.nil_append, List.cons.injEq] at h
    obtain ⟨_, h1, h2⟩ := h
    subst h1
    rw [← h2]
    decide
  · simp only [List.cons_append, List.nil_append, List.cons.injEq] at h
    obtain ⟨_, _, h1, h2⟩ := h
    subst h1
    rw [← h2]
    decide
  · simp only [List.cons_append, List.nil_append, List.cons.injEq] at h
    obtain ⟨_, _, _, h1, h2⟩ := h
    subst h1
    rw [← h2]
    decide
  · exfalso
    simp only [List.cons_append, List.cons.injEq] at h
    obtain ⟨_, _, _, _, h⟩ := h
    exact absurd h.symm (List.append_ne_nil_of_right_ne_nil t (List.cons_ne_nil op l₂))

lemma take_action_slide_of_exists (net : Net) (sf : Board → ℕ → ℤ × Board)
    (b : Board) (hist : List Entry)
    (hex : ∃ op ∈ op_code, legal sf b op ∧ -1 < estimate net sf b op) :
    ∃ op ∈ op_code,
      legal sf b op
      ∧ -1 < estimate net sf b op
      ∧ take_action net sf b hist
          = (Act.slide (op : ℤ), (b, (sf b op).1) :: hist)
      ∧ (∀ o ∈ op_code, legal sf b o →
          estimate net sf b o ≤ estimate net sf b op)
      ∧ (∀ o ∈ op_code, legal sf b o →
          estimate net sf b o = estimate net sf b op → op ≤ o) := by
  obtain ⟨op₀, hmem₀, hleg₀, hgt₀⟩ := hex
  rcases slide_fold_spec net sf b op_code (-1, -1, 0) with
    ⟨heq, hle⟩ | ⟨l₁, op, l₂, hdec, hleg, hfold, hlt, hl₁, hl₂⟩
  · exact absurd (hle op₀ hmem₀ hleg₀) (not_le.mpr hgt₀)
  · have hlt' : (-1 : ℚ) < estimate net sf b op := hlt
    refine ⟨op, by rw [hdec]; exact List.mem_append_right _ (List.mem_cons_self _ _),
      hleg, hlt', ?_, ?_, ?_⟩
    · simp only [take_action, hfold]
      rw [if_pos (show ((op : ℤ) ≠ -1) from by omega)]
    · intro o ho hlo
      rw [hdec] at ho
      rcases List.mem_append.mp ho with h1 | h2
      · exact le_of_lt (hl₁ o h1 hlo)
      · rcases List.mem_cons.mp h2 with rfl | h3
        · exact le_refl _
        · exact hl₂ o h3 hlo
    · intro o ho hlo hoeq
      rw [hdec] at ho
      rcases List.mem_append.mp ho with h1 | h2
      · exact absurd hoeq (ne_of_lt (hl₁ o h1 hlo))
      · rcases List.mem_cons.mp h2 with rfl | h3
        · exact le_refl _
        · exact le_of_lt (op_code_decomp l₁ op l₂ hdec o h3)

lemma take_action_null_of_all_le (net : Net) (sf : Board → ℕ → ℤ × Board)
    (b : Board) (hist : List Entry)
    (hall : ∀ op ∈ op_code, legal sf b op → estimate net sf b op ≤ -1) :
    take_action net sf b hist = (Act.null, (b, 0) :: hist) := by
  rcases slide_fold_spec net sf b op_code (-1, -1, 0) with
    ⟨heq, _⟩ | ⟨l₁, op, l₂, hdec, hleg, _, hlt, _, _⟩
  · simp only [take_action, heq]
    simp
  · exfalso
    have hop : op ∈ op_code := by
      rw [hdec]
      exact List.mem_append_right _ (List.mem_cons_self _ _)
    have hlt' : (-1 : ℚ) < estimate net sf b op := hlt
    exact absurd (hall op hop hleg) (not_le.mpr hlt')

/-- C1 (amended): whenever some legal move has `value(afterstate) + reward`
strictly above the `-1` initialisation of `best`, `take_action` returns the
legal move maximising the estimate (the first direction in enumeration order
0,1,2,3 on ties) and pushes (pre-move board, that move's reward); when every
legal move's estimate is at most `-1` — in particular when no move is legal —
it pushes (pre-move board, 0) and returns the null action.  The original
claim is refuted by `claim_C1_counterexample` because `best` starts at `-1`
rather than `-∞`. -/
theorem claim_C1_take_action (net : Net) (sf : Board → ℕ → ℤ × Board)
    (b : Board) (hist : List Entry) :
    ((∃ op ∈ op_code, legal sf b op ∧ -1 < estimate net sf b op) →
      ∃ op ∈ op_code,
        legal sf b op
        ∧ -1 < estimate net sf b op
        ∧ take_action net sf b hist
            = (Act.slide (op : ℤ), (b, (sf b op).1) :: hist)
        ∧ (∀ o ∈ op_code, legal sf b o →
            estimate net sf b o ≤ estimate net sf b op)
        ∧ (∀ o ∈ op_code, legal sf b o →
            estimate net sf b o = estimate net sf b op → op ≤ o))
    ∧ ((∀ op ∈ op_code, legal sf b op → estimate net sf b op ≤ -1) →
        take_action net sf b hist = (Act.null, (b, 0) :: hist)) :=
  ⟨take_action_slide_of_exists net sf b hist, take_action_null_of_all_le net sf b hist⟩

/-- The four-row expansion of the value sum (`features` has exactly the four
configured base features). -/
lemma get_value_4rows (net : Net) (b : Board) :
    get_value net b
      = row_value net 0 b + row_value net 1 b + row_value net 2 b
        + row_value net 3 b := by
  unfold get_value
  rw [show List.range features.length = [0, 1, 2, 3] from by decide]
  simp only [List.map_cons, List.map_nil, List.sum_cons, List.sum_nil]
  ring

lemma row_value_const (c : ℚ) (i : ℕ) (b : Board) :
    row_value (fun _ _ => c) i b = ((features.getD i []).length : ℚ) * c := by
  unfold row_value
  rw [List.map_const', List.sum_replicate, nsmul_eq_mul]

lemma get_value_const (c : ℚ) (b : Board) :
    get_value (fun _ _ => c) b = 28 * c := by
  rw [get_value_4rows, row_value_const, row_value_const, row_value_const,
    row_value_const]
  rw [show (features.getD 0 []).length = 8 from by decide,
      show (features.getD 1 []).length = 8 from by decide,
      show (features.getD 2 []).length = 4 from by decide,
      show (features.getD 3 []).length = 8 from by decide]
  push_cast
  ring

/-- C1 counterexample: with all-`-1` weights the single legal move's estimate
is `-28 ≤ -1`, so the fold never beats the `best = -1` initialisation and
`take_action` returns the null action even though a legal move exists,
refuting the claim that the null action is returned only when no move is
legal. -/
theorem claim_C1_counterexample :
    (0 ∈ op_code ∧ legal cexSf sampleBoard 0)
    ∧ (take_action cexNet cexSf sampleBoard []).1 = Act.null := by
  refine ⟨⟨by decide, by decide⟩, ?_⟩
  have hall : ∀ op ∈ op_code, legal cexSf sampleBoard op →
      estimate cexNet cexSf sampleBoard op ≤ -1 := by
    intro op _ hleg
    by_cases h0 : op = 0
    · subst h0
      have hv : estimate cexNet cexSf sampleBoard 0 = -28 := by
        show get_value (fun _ _ => (-1 : ℚ)) sampleBoard + ((0 : ℤ) : ℚ) = -28
        rw [get_value_const]
        norm_num
      rw [hv]
      norm_num
    · exfalso
      apply hleg
      show (cexSf sampleBoard op).1 = -1
      unfold cexSf
      rw [if_neg h0]
  rw [take_action_null_of_all_le cexNet cexSf sampleBoard [] hall]

/-- Witness for C1 (amended): its two implications instantiated with an
always-legal slide and an always-illegal slide respectively. -/
theorem claim_C1_take_action_witness :
    (∃ op ∈ op_code, legal sampleSf sampleBoard op
      ∧ -1 < estimate zeroNet sampleSf sampleBoard op)
    ∧ (∃ op ∈ op_code,
        legal sampleSf sampleBoard op
        ∧ -1 < estimate zeroNet sampleSf sampleBoard op
        ∧ take_action zeroNet sampleSf sampleBoard []
            = (Act.slide (op : ℤ), (sampleBoard, (sampleSf sampleBoard op).1) :: [])
        ∧ (∀ o ∈ op_code, legal sampleSf sampleBoard o →
            estimate zeroNet sampleSf sampleBoard o
              ≤ estimate zeroNet sampleSf sampleBoard op)
        ∧ (∀ o ∈ op_code, legal sampleSf sampleBoard o →
            estimate zeroNet sampleSf sampleBoard o
                = estimate zeroNet sampleSf sampleBoard op → op ≤ o))
    ∧ (∀ op ∈ op_code, legal noMoveSf sampleBoard op
        → estimate zeroNet noMoveSf sampleBoard op ≤ -1)
    ∧ take_action zeroNet noMoveSf sampleBoard []
        = (Act.null, (sampleBoard, 0) :: []) := by
  have hest : estimate zeroNet sampleSf sampleBoard 0 = 0 := by
    show get_value (fun _ _ => (0 : ℚ)) sampleBoard + ((0 : ℤ) : ℚ) = 0
    rw [get_value_const]
    norm_num
  have h1 : ∃ op ∈ op_code, legal sampleSf sampleBoard op
      ∧ -1 < estimate zeroNet sampleSf sampleBoard op := by
    refine ⟨0, by decide, by decide, ?_⟩
    rw [hest]
    norm_num
  have h2 : ∀ op ∈ op_code, legal noMoveSf sampleBoard op
      → estimate zeroNet noMoveSf sampleBoard op ≤ -1 :=
    fun op _ hleg => absurd rfl hleg
  exact ⟨h1, (claim_C1_take_action zeroNet sampleSf sampleBoard []).1 h1, h2,
    (claim_C1_take_action zeroNet noMoveSf sampleBoard []).2 h2⟩

lemma emptyCount_transform (p : List ℕ) (hp : List.Perm p (List.range 16))
    (hmap : (List.range 16).map (fun i => p.getD i i) = p) (b : Board) :
    emptyCount (transformBoard p b) = emptyCount b := by
  unfold emptyCount transformBoard
  have h1 : (List.range 16).countP (fun i => b (p.getD i i) == 0)
      = ((List.range 16).map (fun i => p.getD i i)).countP (fun j => b j == 0) := by
    rw [List.countP_map]
    rfl
  rw [h1, hmap]
  exact hp.countP_eq _

lemma index_fold_transform (p : List ℕ) (b : Board)
    (he : emptyCount (transformBoard p b) = emptyCount b) :
    ∀ (l : List ℤ) (acc : ℕ),
      l.foldl
        (fun idx k => (idx <<< 4) |||
          (if k = -1 then emptyCount (transformBoard p b)
            else transformBoard p b k.toNat)) acc
      = (l.map (fun k =>
            if k = -1 then -1 else ((p.getD k.toNat k.toNat : ℕ) : ℤ))).foldl
          (fun idx k => (idx <<< 4) ||| (if k = -1 then emptyCount b else b k.toNat))
          acc := by
  intro l
  induction l with
  | nil => intro acc; rfl
  | cons k rest ih =>
    intro acc
    rw [List.map_cons, List.foldl_cons, List.foldl_cons, ih]
    congr 2
    by_cases hk : k = -1
    · simp [hk, he]
    · have hne : ((p.getD k.toNat k.toNat : ℕ) : ℤ) ≠ -1 := by omega
      simp only [hk, if_neg, not_false_iff, hne, Int.toNat_natCast]
      rfl

lemma feature_index_transform (p : List ℕ) (hp : List.Perm p (List.range 16))
    (hmap : (List.range 16).map (fun i => p.getD i i) = p) (b : Board)
    (f : Feature) :
    f.index (transformBoard p b) = (actOn p f).index b := by
  unfold Feature.index actOn
  exact index_fold_transform p b (emptyCount_transform p hp hmap b) f.feature 0

lemma row_value_transform (p : List ℕ) (hp : List.Perm p (List.range 16))
    (hmap : (List.range 16).map (fun i => p.getD i i) = p) (net : Net) (i : ℕ)
    (b : Board)
    (horb : List.Perm ((features.getD i []).map (actOn p)) (features.getD i [])) :
    row_value net i (transformBoard p b) = row_value net i b := by
  unfold row_value
  have h1 : (features.getD i []).map (fun f => net i (f.index (transformBoard p b)))
      = (features.getD i []).map (fun f => net i ((actOn p f).index b)) :=
    List.map_congr_left (fun f _ => by rw [feature_index_transform p hp hmap b f])
  have h2 : (features.getD i []).map (fun f => net i ((actOn p f).index b))
      = ((features.getD i []).map (actOn p)).map (fun g => net i (g.index b)) := by
    rw [List.map_map]
    rfl
  rw [h1, h2]
  exact (horb.map (fun g => net i (g.index b))).sum_eq

lemma syms_perm_fact : ∀ p ∈ syms, List.Perm p (List.range 16) := by decide

lemma syms_map_fact :
    ∀ p ∈ syms, (List.range 16).map (fun i => p.getD i i) = p := by decide

lemma orbit_perm_fact :
    ∀ p ∈ syms, ∀ i ∈ ([0, 1, 3] : List ℕ),
      List.Perm ((features.getD i []).map (actOn p)) (features.getD i []) := by
  decide

lemma orbit_perm_rot_fact :
    ∀ p ∈ syms.take 4, ∀ i ∈ ([0, 1, 2, 3] : List ℕ),
      List.Perm ((features.getD i []).map (actOn p)) (features.getD i []) := by
  decide

/-- C4 (amended): for each of the 8 board symmetries, the per-table value sum
is invariant for the three base features whose deduplicated orbits keep all
8 variants (the 1st, 2nd and 4th configured features), and the full value
function is invariant under the four pure rotations; full invariance under
reflections fails for the reduced-orbit base feature `{5,6,7,9,10,11}`, as
`claim_C4_counterexample` shows. -/
theorem claim_C4_value_symmetry (p : List ℕ) (hp : p ∈ syms) (net : Net)
    (b : Board) :
    (∀ i ∈ ([0, 1, 3] : List ℕ),
      row_value net i (transformBoard p b) = row_value net i b)
    ∧ (p ∈ syms.take 4 →
        get_value net (transformBoard p b) = get_value net b) := by
  constructor
  · intro i hi
    exact row_value_transform p (syms_perm_fact p hp) (syms_map_fact p hp) net i b
      (orbit_perm_fact p hp i hi)
  · intro hrot
    rw [get_value_4rows, get_value_4rows,
      row_value_transform p (syms_perm_fact p hp) (syms_map_fact p hp) net 0 b
        (orbit_perm_rot_fact p hrot 0 (by decide)),
      row_value_transform p (syms_perm_fact p hp) (syms_map_fact p hp) net 1 b
        (orbit_perm_rot_fact p hrot 1 (by decide)),
      row_value_transform p (syms_perm_fact p hp) (syms_map_fact p hp) net 2 b
        (orbit_perm_rot_fact p hrot 2 (by decide)),
      row_value_transform p (syms_perm_fact p hp) (syms_map_fact p hp) net 3 b
        (orbit_perm_rot_fact p hrot 3 (by decide))]

/-- Witness for C4 (amended) at the reflection symmetry and base feature 0. -/
theorem claim_C4_value_symmetry_witness :
    reflection_matching ∈ syms
    ∧ (0 : ℕ) ∈ ([0, 1, 3] : List ℕ)
    ∧ row_value sampleNet 0 (transformBoard reflection_matching sampleBoard)
        = row_value sampleNet 0 sampleBoard :=
  ⟨by decide, by decide,
   (claim_C4_value_symmetry reflection_matching (by decide) sampleNet
       sampleBoard).1 0 (by decide)⟩

lemma c4Net_ne (i j : ℕ) (h : i ≠ 2) : c4Net i j = 0 := by
  unfold c4Net
  rw [if_neg]
  exact fun hc => h hc.1

lemma row_value_c4_zero (i : ℕ) (h : i ≠ 2) (b : Board) :
    row_value c4Net i b = 0 := by
  unfold row_value
  rw [List.map_congr_left (fun f _ => c4Net_ne i (f.index b) h), List.map_const',
    List.sum_replicate]
  simp

lemma c4_row2_orbit :
    features.getD 2 []
      = [⟨[6, 10, 14, 5, 9, 13]⟩, ⟨[5, 6, 7, 9, 10, 11]⟩,
         ⟨[10, 9, 8, 6, 5, 4]⟩, ⟨[9, 5, 1, 10, 6, 2]⟩] := by
  decide

lemma c4_row2_value_base : row_value c4Net 2 c4Board = 1 := by
  unfold row_value
  rw [c4_row2_orbit]
  simp only [List.map_cons, List.map_nil, List.sum_cons, List.sum_nil]
  rw [show Feature.index ⟨[6, 10, 14, 5, 9, 13]⟩ c4Board = 2097408 from by decide,
      show Feature.index ⟨[5, 6, 7, 9, 10, 11]⟩ c4Board = 1179648 from by decide,
      show Feature.index ⟨[10, 9, 8, 6, 5, 4]⟩ c4Board = 528 from by decide,
      show Feature.index ⟨[9, 5, 1, 10, 6, 2]⟩ c4Board = 65568 from by decide]
  norm_num [c4Net]

lemma c4_row2_value_flipped :
    row_value c4Net 2 (transformBoard udFlip c4Board) = 0 := by
  unfold row_value
  rw [c4_row2_orbit]
  simp only [List.map_cons, List.map_nil, List.sum_cons, List.sum_nil]
  rw [show Feature.index ⟨[6, 10, 14, 5, 9, 13]⟩ (transformBoard udFlip c4Board)
        = 131088 from by decide,
      show Feature.index ⟨[5, 6, 7, 9, 10, 11]⟩ (transformBoard udFlip c4Board)
        = 288 from by decide,
      show Feature.index ⟨[10, 9, 8, 6, 5, 4]⟩ (transformBoard udFlip c4Board)
        = 2162688 from by decide,
      show Feature.index ⟨[9, 5, 1, 10, 6, 2]⟩ (transformBoard udFlip c4Board)
        = 1049088 from by decide]
  norm_num [c4Net]

/-- C4 counterexample: the up-down flip is one of the 8 board symmetries, yet
the value function is not invariant under it — the reduced 4-member orbit of
base feature `{5,6,7,9,10,11}` (deduplicated by the order-insensitive
position-set hash) is not closed under the flip's index re-mapping. -/
theorem claim_C4_counterexample :
    udFlip ∈ syms
    ∧ get_value c4Net (transformBoard udFlip c4Board) ≠ get_value c4Net c4Board := by
  refine ⟨by decide, ?_⟩
  rw [get_value_4rows, get_value_4rows, c4_row2_value_base, c4_row2_value_flipped,
    row_value_c4_zero 0 (by decide), row_value_c4_zero 1 (by decide),
    row_value_c4_zero 3 (by decide), row_value_c4_zero 0 (by decide),
    row_value_c4_zero 1 (by decide), row_value_c4_zero 3 (by decide)]
  norm_num
